import Mathlib

/-!
Verification of the `contentencoding` HTTP middleware (go-content-encoding).

The development shallowly embeds the package's `Decode` middleware and its
helpers (`splitEncodingHeader`, `mergeAcceptEncoding`, `joinWithCommaSpace`,
`decompressBrotli` / `decompressGzip` / `decompressZstd` dispatch, the custom
`Decoder` scan, and the `Accept-Encoding` negotiation) as pure Lean
functions.  A request body is a list of bytes; the external codec
constructors (brotli / gzip / zstd readers) are collaborator parameters: a
`Codecs` record of functions, where the brotli constructor is total (it
never fails at dispatch time) and the gzip / zstd constructors may fail, as
in the Go source.  Observable actions of one request's processing (which
decode step ran, whether the error handler ran, whether `Accept-Encoding`
was set, whether the next handler ran) are recorded as an event trace.
-/

namespace ContentEncoding

/-- A request or response body: a finite byte sequence. -/
abbrev Body := List Nat

/-- Observable actions of one pass of the middleware, in order of occurrence:
the built-in decode steps, invocation of the custom decoder at a given index
of the registered list, invocation of the configured error handler with the
error message, setting the `Accept-Encoding` response header to a value, and
delegation to the next handler. -/
inductive Event where
  | builtinBr : Event
  | builtinGzip : Event
  | builtinZstd : Event
  | custom : Nat → Event
  | errEvent : String → Event
  | setAccept : String → Event
  | next : Event
  deriving DecidableEq, Repr

/-- Whether an event is a decode step (a built-in or custom decoder
invocation), as opposed to the error-handler, header, or delegation
events. -/
def Event.isDecodeStep : Event → Bool
  | .builtinBr => true
  | .builtinGzip => true
  | .builtinZstd => true
  | .custom _ => true
  | _ => false

/-- Whether an event is an invocation of the configured error handler. -/
def Event.isErrCall : Event → Bool
  | .errEvent _ => true
  | _ => false

/-- An opaque zstd decoder option (`zstd.DOption`), forwarded verbatim. -/
structure DOption where
  id : Nat
  deriving DecidableEq, Repr

/-- `Decoder` from the source: a custom decoder for a user defined
Content-Encoding.  The Go handler receives `(w, r)` and mutates `r.Body` or
returns an error; here it is a function from the current body to either an
error message or the replacement body. -/
structure Decoder where
  Encoding : String
  Handler : Body → Except String Body

/-- The external codec constructors the dispatcher calls
(`brotli.NewReader`, `gzip.NewReader`, `zstd.NewReader`): brotli never fails
at construction, gzip and zstd may fail; zstd receives the configured
options. -/
structure Codecs where
  brotli : Body → Body
  gzip : Body → Except String Body
  zstd : List DOption → Body → Except String Body

/-- The response-side state the middleware can observe and modify: the
`Accept-Encoding` response header (`""` when unset, as
`http.Header.Get` reports a missing key), and the effect of the error
handler is folded in by `serve` applying `Config.errHandler`. -/
structure ResponseState where
  acceptEncoding : String
  deriving DecidableEq, Repr

/-- The request fields the middleware reads: the method, the raw
`Content-Encoding` header value (`""` when absent), and the body. -/
structure Request where
  method : String
  contentEncoding : String
  body : Body
  deriving DecidableEq, Repr

/-- `config` from the source: the error handler, the registered custom
decoders (in registration order), and the zstd decode options. -/
structure Config where
  errHandler : ResponseState → Request → String → ResponseState
  decoders : List Decoder
  dopts : List DOption

/-- Character-level model of `strings.NewReplacer(" ", "").Replace`: scan the
string and drop every occurrence of the single-character pattern `' '`. -/
def replaceSpaceAux : List Char → List Char
  | [] => []
  | c :: cs => if c = ' ' then replaceSpaceAux cs else c :: replaceSpaceAux cs

/-- `noSpace.Replace` from the source. -/
def noSpaceReplace (s : String) : String :=
  ⟨replaceSpaceAux s.data⟩

/-- Character-level model of Go's `strings.Split(s, ",")`: split around every
comma, keeping empty fields; `acc` holds the current field reversed. -/
def splitCommaAux : List Char → List Char → List String
  | [], acc => [String.mk acc.reverse]
  | c :: cs, acc =>
    if c = ',' then String.mk acc.reverse :: splitCommaAux cs []
    else splitCommaAux cs (c :: acc)

/-- `strings.Split(s, ",")`. -/
def splitComma (s : String) : List String :=
  splitCommaAux s.data []

/-- `splitEncodingHeader` from the source: empty input yields the empty list,
otherwise remove spaces and split on commas. -/
def splitEncodingHeader (raw : String) : List String :=
  if raw = "" then [] else splitComma (noSpaceReplace raw)

/-- `joinWithCommaSpace` from the source: `strings.Join(ss, ", ")`. -/
def joinWithCommaSpace : List String → String
  | [] => ""
  | [s] => s
  | s :: rest => s ++ ", " ++ joinWithCommaSpace rest

/-- `strings.Join(ss, ",")`, used only to state that `splitComma` really is
a split on commas (joining the fields with commas recovers the input). -/
def joinComma : List String → String
  | [] => ""
  | [s] => s
  | s :: rest => s ++ "," ++ joinComma rest

/-- Lexicographic less-or-equal on code-point sequences, the order
`sort.Strings` uses (byte-wise comparison of UTF-8 strings coincides with
code-point-wise comparison, since UTF-8 is order preserving). -/
def natLexLe : List Nat → List Nat → Bool
  | [], _ => true
  | _ :: _, [] => false
  | a :: as, b :: bs =>
    if a < b then true else if b < a then false else natLexLe as bs

/-- The code points of a string, the sort key for `sortStrings`. -/
def charKey (s : String) : List Nat :=
  s.data.map Char.toNat

/-- Lexicographic comparison of two strings. -/
def strLe (a b : String) : Bool :=
  natLexLe (charKey a) (charKey b)

/-- The `Prop`-valued order `sortStrings` sorts by. -/
def StrLeProp (a b : String) : Prop := strLe a b = true

instance : DecidableRel StrLeProp := fun x y => inferInstanceAs (Decidable (strLe x y = true))

/-- `sort.Strings`: sort a string slice in ascending lexicographic order. -/
def sortStrings (l : List String) : List String :=
  List.insertionSort StrLeProp l

/-- `mergeAcceptEncoding` from the source: tokenize the current header; if it
is empty just join the additions; otherwise take the set union of current
tokens and additions (`strset.New` + `Merge`), sort it (`sort.Strings`) and
join.  The unordered set is modelled by `List.dedup` of the concatenation:
sorting makes the output independent of the enumeration order, which is
proved below for every duplicate-free enumeration of the union. -/
def mergeAcceptEncoding (raw : String) (adds : List String) : String :=
  let current := splitEncodingHeader raw
  if current.length = 0 then joinWithCommaSpace adds
  else joinWithCommaSpace (sortStrings (current ++ adds).dedup)

/-- The `encodings` slice built by `Decode`: the built-ins followed by every
custom decoder's token in registration order. -/
def encodings (cfg : Config) : List String :=
  ["br", "gzip", "zstd"] ++ cfg.decoders.map (·.Encoding)

/-- The `acceptEncoding` string precomputed by `Decode`. -/
def acceptEncodingDefault (cfg : Config) : String :=
  joinWithCommaSpace (encodings cfg)

/-- The scan over `cfg.decoders` in the `default` switch case: every decoder
whose `Encoding` equals the token is invoked (the Go loop has no `break`),
each on the body left by the previous step; a failing handler stops the scan
with its error.  `idx` is the index of the first decoder of `ds` in the full
registered list, used to tag invocation events. -/
def runCustoms (ds : List Decoder) (idx : Nat) (v : String) (b : Body) :
    List Event × Body × Option String :=
  match ds with
  | [] => ([], b, none)
  | d :: rest =>
    if v = d.Encoding then
      match d.Handler b with
      | .error e => ([Event.custom idx], b, some e)
      | .ok b' =>
        match runCustoms rest (idx + 1) v b' with
        | (evs, b'', res) => (Event.custom idx :: evs, b'', res)
    else runCustoms rest (idx + 1) v b

/-- The (index, decoder) pairs of a custom-decoder list whose `Encoding`
equals the token, in registration order, indices counted from `idx`;
`matchingDecoders ds 0 v` is the sequence of matching entries of the
registered list with their registration positions. -/
def matchingDecoders : List Decoder → Nat → String → List (Nat × Decoder)
  | [], _, _ => []
  | d :: rest, idx, v =>
    if v = d.Encoding then (idx, d) :: matchingDecoders rest (idx + 1) v
    else matchingDecoders rest (idx + 1) v

/-- Spec-side counterpart of the custom scan, written from the amended
claim's words: invoke every listed decoder in order, each on the body
produced by the previous one, recording each invocation, and stop early
only when a handler fails, returning its error.  The amended claim is that
`runCustoms` coincides with this function applied to exactly the matching
entries of the registered list. -/
def invokeAllSpec : List (Nat × Decoder) → Body → List Event × Body × Option String
  | [], b => ([], b, none)
  | (i, d) :: rest, b =>
    match d.Handler b with
    | .error e => ([Event.custom i], b, some e)
    | .ok b' =>
      match invokeAllSpec rest b' with
      | (evs, b'', res) => (Event.custom i :: evs, b'', res)

/-- One iteration of the dispatch switch on a token `v`: the built-in cases
in source order, the `"", "identity"` no-op case, then the custom scan.
Returns the events, the body after the step (unchanged when the step fails,
since a failing constructor never reassigns `r.Body`), and the error, if
any. -/
def applyToken (codecs : Codecs) (cfg : Config) (v : String) (b : Body) :
    List Event × Body × Option String :=
  if v = "br" then ([Event.builtinBr], codecs.brotli b, none)
  else if v = "gzip" ∨ v = "x-gzip" then
    match codecs.gzip b with
    | .error e => ([Event.builtinGzip], b, some e)
    | .ok b' => ([Event.builtinGzip], b', none)
  else if v = "zstd" then
    match codecs.zstd cfg.dopts b with
    | .error e => ([Event.builtinZstd], b, some e)
    | .ok b' => ([Event.builtinZstd], b', none)
  else if v = "" ∨ v = "identity" then ([], b, none)
  else runCustoms cfg.decoders 0 v b

/-- The token loop of `Decode`'s handler.  The Go code walks the token array
from the last index down to 0; here the loop receives the already reversed
list and walks it front to back, stopping at the first failing step. -/
def decodeLoop (codecs : Codecs) (cfg : Config) :
    List String → Body → List Event × Body × Option String
  | [], b => ([], b, none)
  | v :: vs, b =>
    match applyToken codecs cfg v b with
    | (evs, b', some e) => (evs, b', some e)
    | (evs, b', none) =>
      match decodeLoop codecs cfg vs b' with
      | (evs', b'', res) => (evs ++ evs', b'', res)

/-- The `Accept-Encoding` value the success path writes: the precomputed
default list when the response carries no prior header, the merge
otherwise. -/
def negotiated (cfg : Config) (w : ResponseState) : String :=
  if w.acceptEncoding = "" then acceptEncodingDefault cfg
  else mergeAcceptEncoding w.acceptEncoding (encodings cfg)

/-- The handler returned by `Decode`, as one pure function from the inbound
request and response state to the event trace, the request as the next
handler receives it (or as the error handler received it), and the final
response state.  GET and HEAD delegate immediately; otherwise the token
loop runs over the reversed `Content-Encoding` tokens; on failure the
configured error handler receives the response writer, the request with the
partially decoded body, and the error, and nothing else happens; on success
`Accept-Encoding` is negotiated and the next handler runs. -/
def serve (codecs : Codecs) (cfg : Config) (r : Request) (w : ResponseState) :
    List Event × Request × ResponseState :=
  if r.method = "GET" ∨ r.method = "HEAD" then ([Event.next], r, w)
  else
    match decodeLoop codecs cfg (splitEncodingHeader r.contentEncoding).reverse r.body with
    | (evs, b, some e) =>
      (evs ++ [Event.errEvent e], { r with body := b },
        cfg.errHandler w { r with body := b } e)
    | (evs, b, none) =>
      (evs ++ [Event.setAccept (negotiated cfg w), Event.next],
        { r with body := b }, { w with acceptEncoding := negotiated cfg w })

/-! ### The lexicographic string order used by `sortStrings` -/

theorem natLexLe_total : ∀ x y : List Nat, natLexLe x y = true ∨ natLexLe y x = true
  | [], _ => Or.inl rfl
  | _ :: _, [] => Or.inr rfl
  | a :: as, b :: bs => by
    simp only [natLexLe]
    rcases Nat.lt_trichotomy a b with h | h | h
    · simp [h]
    · subst h
      simpa [Nat.lt_irrefl] using natLexLe_total as bs
    · simp [h, Nat.lt_asymm h]

theorem natLexLe_trans :
    ∀ {x y z : List Nat}, natLexLe x y = true → natLexLe y z = true → natLexLe x z = true
  | [], _, _, _, _ => rfl
  | _ :: _, [], _, hxy, _ => by simp [natLexLe] at hxy
  | _ :: _, _ :: _, [], _, hyz => by simp [natLexLe] at hyz
  | a :: as, b :: bs, c :: cs, hxy, hyz => by
    simp only [natLexLe] at hxy hyz ⊢
    by_cases hab : a < b
    · by_cases hbc : b < c
      · simp [show a < c by omega]
      · by_cases hcb : c < b
        · simp [hbc, hcb] at hyz
        · have hbc' : b = c := by omega
          subst hbc'
          simp [hab]
    · by_cases hba : b < a
      · simp [hab, hba] at hxy
      · have hab' : a = b := by omega
        subst hab'
        simp [Nat.lt_irrefl] at hxy
        by_cases hac : a < c
        · simp [hac]
        · by_cases hca : c < a
          · simp [hac, hca] at hyz
          · simp [hac, hca] at hyz ⊢
            exact natLexLe_trans hxy hyz

theorem natLexLe_antisymm :
    ∀ {x y : List Nat}, natLexLe x y = true → natLexLe y x = true → x = y
  | [], [], _, _ => rfl
  | [], _ :: _, _, hyx => by simp [natLexLe] at hyx
  | _ :: _, [], hxy, _ => by simp [natLexLe] at hxy
  | a :: as, b :: bs, hxy, hyx => by
    simp only [natLexLe] at hxy hyx
    by_cases hab : a < b
    · simp [hab, Nat.lt_asymm hab] at hyx
    · by_cases hba : b < a
      · simp [hab, hba] at hxy
      · have hab' : a = b := by omega
        subst hab'
        simp [Nat.lt_irrefl] at hxy hyx
        rw [natLexLe_antisymm hxy hyx]

theorem charKey_injective : Function.Injective charKey := by
  intro a b h
  have hmap : a.data = b.data := by
    refine List.map_injective_iff.mpr ?_ h
    intro c d hcd
    exact Char.eq_of_val_eq (UInt32.eq_of_toBitVec_eq (BitVec.toNat_injective hcd))
  cases a; cases b; exact congrArg String.mk hmap

instance : IsTotal String StrLeProp :=
  ⟨fun a b => natLexLe_total (charKey a) (charKey b)⟩

instance : IsTrans String StrLeProp :=
  ⟨fun _ _ _ h₁ h₂ => natLexLe_trans h₁ h₂⟩

instance : IsAntisymm String StrLeProp :=
  ⟨fun _ _ h₁ h₂ => charKey_injective (natLexLe_antisymm h₁ h₂)⟩

theorem sortStrings_sorted (l : List String) : List.Sorted StrLeProp (sortStrings l) :=
  List.sorted_insertionSort StrLeProp l

theorem sortStrings_perm (l : List String) : List.Perm (sortStrings l) l :=
  List.perm_insertionSort StrLeProp l

theorem sortStrings_eq_of_perm {l₁ l₂ : List String} (h : List.Perm l₁ l₂) :
    sortStrings l₁ = sortStrings l₂ :=
  List.eq_of_perm_of_sorted ((sortStrings_perm l₁).trans (h.trans (sortStrings_perm l₂).symm))
    (sortStrings_sorted l₁) (sortStrings_sorted l₂)

/-! ### Header tokenization -/

theorem splitCommaAux_ne_nil : ∀ (cs acc : List Char), splitCommaAux cs acc ≠ []
  | [], _ => by simp [splitCommaAux]
  | c :: cs, acc => by
    simp only [splitCommaAux]
    split
    · simp
    · exact splitCommaAux_ne_nil cs (c :: acc)

theorem splitEncodingHeader_eq_nil_iff (raw : String) :
    splitEncodingHeader raw = [] ↔ raw = "" := by
  unfold splitEncodingHeader
  split <;> simp_all [splitComma, splitCommaAux_ne_nil]

theorem replaceSpaceAux_eq_filter :
    ∀ cs : List Char, replaceSpaceAux cs = cs.filter (fun c => c != ' ')
  | [] => rfl
  | c :: cs => by
    simp only [replaceSpaceAux, List.filter_cons, replaceSpaceAux_eq_filter cs]
    by_cases h : c = ' ' <;> simp [h]

theorem joinComma_data :
    ∀ (cs acc : List Char), (joinComma (splitCommaAux cs acc)).data = acc.reverse ++ cs
  | [], acc => by simp [splitCommaAux, joinComma]
  | c :: cs, acc => by
    simp only [splitCommaAux]
    split
    · rename_i h
      subst h
      have ih := joinComma_data cs ([] : List Char)
      rcases hrest : splitCommaAux cs ([] : List Char) with _ | ⟨t, ts⟩
      · exact absurd hrest (splitCommaAux_ne_nil cs [])
      · rw [hrest] at ih
        simp only [joinComma, String.data_append]
        rw [ih]
        simp
    · have ih := joinComma_data cs (c :: acc)
      simpa using ih

theorem joinComma_splitComma (s : String) : joinComma (splitComma s) = s := by
  have h := joinComma_data s.data []
  cases s
  simp only [splitComma] at *
  exact congrArg String.mk (by simpa using h)

theorem splitCommaAux_chars :
    ∀ (cs acc : List Char) (t : String), t ∈ splitCommaAux cs acc →
      ∀ c ∈ t.data, c ∈ cs ∨ c ∈ acc
  | [], acc, t, ht, c, hc => by
    simp [splitCommaAux] at ht
    subst ht
    simp at hc
    exact Or.inr (by simpa using hc)
  | d :: cs, acc, t, ht, c, hc => by
    simp only [splitCommaAux] at ht
    split at ht
    · rcases List.mem_cons.mp ht with h | h
      · subst h
        simp at hc
        right; simpa using hc
      · rcases splitCommaAux_chars cs [] t h c hc with h' | h'
        · exact Or.inl (List.mem_cons_of_mem _ h')
        · simp at h'
    · rcases splitCommaAux_chars cs (d :: acc) t ht c hc with h' | h'
      · exact Or.inl (List.mem_cons_of_mem _ h')
      · rcases List.mem_cons.mp h' with h'' | h''
        · exact Or.inl (by simp [h''])
        · exact Or.inr h''

theorem splitEncodingHeader_no_space (raw : String) :
    ∀ t ∈ splitEncodingHeader raw, ' ' ∉ t.data := by
  intro t ht hsp
  unfold splitEncodingHeader at ht
  split at ht
  · simp at ht
  · have := splitCommaAux_chars (noSpaceReplace raw).data [] t ht ' ' hsp
    rcases this with h | h
    · rw [show (noSpaceReplace raw).data = replaceSpaceAux raw.data from rfl,
        replaceSpaceAux_eq_filter] at h
      have := List.of_mem_filter h
      simp at this
    · simp at h

/-! ### Event traces of the token loop -/

theorem runCustoms_events_decode (ds : List Decoder) :
    ∀ (idx : Nat) (v : String) (b : Body), ∀ e ∈ (runCustoms ds idx v b).1,
      e.isDecodeStep = true := by
  induction ds with
  | nil => intro idx v b e he; simp [runCustoms] at he
  | cons d rest ih =>
    intro idx v b e he
    simp only [runCustoms] at he
    split at he
    · rcases hh : d.Handler b with e' | b'
      · rw [hh] at he
        simp at he
        simp [he, Event.isDecodeStep]
      · rw [hh] at he
        simp at he
        rcases he with he | he
        · simp [he, Event.isDecodeStep]
        · exact ih (idx + 1) v b' e he
    · exact ih (idx + 1) v b e he

theorem applyToken_events_decode (codecs : Codecs) (cfg : Config) (v : String) (b : Body) :
    ∀ e ∈ (applyToken codecs cfg v b).1, e.isDecodeStep = true := by
  intro e he
  unfold applyToken at he
  split at he
  · simp at he; simp [he, Event.isDecodeStep]
  · split at he
    · rcases hg : codecs.gzip b with e' | b' <;> rw [hg] at he <;>
        (simp at he; simp [he, Event.isDecodeStep])
    · split at he
      · rcases hz : codecs.zstd cfg.dopts b with e' | b' <;> rw [hz] at he <;>
          (simp at he; simp [he, Event.isDecodeStep])
      · split at he
        · simp at he
        · exact runCustoms_events_decode cfg.decoders 0 v b e he

theorem decodeLoop_events_decode (codecs : Codecs) (cfg : Config) :
    ∀ (vs : List String) (b : Body), ∀ e ∈ (decodeLoop codecs cfg vs b).1,
      e.isDecodeStep = true := by
  intro vs
  induction vs with
  | nil => intro b e he; simp [decodeLoop] at he
  | cons v rest ih =>
    intro b e he
    simp only [decodeLoop] at he
    rcases hstep : applyToken codecs cfg v b with ⟨evs, b', res⟩
    rw [hstep] at he
    have hstepered := applyToken_events_decode codecs cfg v b e
    rw [hstep] at hstepered
    cases res with
    | some e' =>
      simp at he
      exact hstepered (by simpa using he)
    | none =>
      simp at he
      rcases he with he | he
      · exact hstepered (by simpa using he)
      · exact ih b' e he

theorem runCustoms_custom_mem :
    ∀ (ds : List Decoder) (idx : Nat) (v : String) (b : Body) (i : Nat),
      Event.custom i ∈ (runCustoms ds idx v b).1 →
      ∃ j d, ds[j]? = some d ∧ i = idx + j ∧ d.Encoding = v := by
  intro ds
  induction ds with
  | nil => intro idx v b i h; simp [runCustoms] at h
  | cons d rest ih =>
    intro idx v b i h
    simp only [runCustoms] at h
    split at h
    · rename_i hv
      rcases hh : d.Handler b with e' | b'
      · rw [hh] at h
        simp at h
        exact ⟨0, d, by simp, by omega, hv.symm⟩
      · rw [hh] at h
        simp at h
        rcases h with h | h
        · exact ⟨0, d, by simp, by omega, hv.symm⟩
        · obtain ⟨j, d', hj, hi, hd⟩ := ih (idx + 1) v b' i h
          exact ⟨j + 1, d', by simpa using hj, by omega, hd⟩
    · obtain ⟨j, d', hj, hi, hd⟩ := ih (idx + 1) v b i h
      exact ⟨j + 1, d', by simpa using hj, by omega, hd⟩

theorem applyToken_custom_mem {codecs : Codecs} {cfg : Config} {v : String} {b : Body}
    {i : Nat} (h : Event.custom i ∈ (applyToken codecs cfg v b).1) :
    v ≠ "br" ∧ v ≠ "gzip" ∧ v ≠ "x-gzip" ∧ v ≠ "zstd" ∧ v ≠ "" ∧ v ≠ "identity" ∧
      ∃ d, cfg.decoders[i]? = some d ∧ d.Encoding = v := by
  unfold applyToken at h
  split at h
  · simp at h
  · rename_i hbr
    split at h
    · rcases hg : codecs.gzip b with e' | b' <;> rw [hg] at h <;> simp at h
    · rename_i hgz
      split at h
      · rcases hz : codecs.zstd cfg.dopts b with e' | b' <;> rw [hz] at h <;> simp at h
      · rename_i hzs
        split at h
        · simp at h
        · rename_i hid
          push_neg at hgz hid
          obtain ⟨j, d, hj, hi, hd⟩ := runCustoms_custom_mem cfg.decoders 0 v b i h
          subst hi
          exact ⟨hbr, hgz.1, hgz.2, hzs, hid.1, hid.2, d, by simpa using hj, hd⟩

theorem decodeLoop_mem_events {codecs : Codecs} {cfg : Config} :
    ∀ {vs : List String} {b : Body} {e : Event}, e ∈ (decodeLoop codecs cfg vs b).1 →
      ∃ v ∈ vs, ∃ b', e ∈ (applyToken codecs cfg v b').1 := by
  intro vs
  induction vs with
  | nil => intro b e h; simp [decodeLoop] at h
  | cons v rest ih =>
    intro b e h
    simp only [decodeLoop] at h
    rcases hstep : applyToken codecs cfg v b with ⟨evs, b', res⟩
    rw [hstep] at h
    cases res with
    | some e' =>
      simp at h
      exact ⟨v, by simp, b, by rw [hstep]; simpa using h⟩
    | none =>
      simp at h
      rcases h with h | h
      · exact ⟨v, by simp, b, by rw [hstep]; simpa using h⟩
      · obtain ⟨v', hv', b₀, hb₀⟩ := ih h
        exact ⟨v', by simp [hv'], b₀, hb₀⟩

/-! ### No-op tokens: `""`, `"identity"`, and unknown encodings -/

theorem runCustoms_no_match :
    ∀ (ds : List Decoder) (idx : Nat) (v : String) (b : Body),
      (∀ d ∈ ds, d.Encoding ≠ v) → runCustoms ds idx v b = ([], b, none) := by
  intro ds
  induction ds with
  | nil => intro idx v b _; rfl
  | cons d rest ih =>
    intro idx v b h
    simp only [runCustoms]
    rw [if_neg (fun hv => h d (by simp) hv.symm)]
    exact ih (idx + 1) v b (fun d' hd' => h d' (by simp [hd']))

theorem applyToken_skip {codecs : Codecs} {cfg : Config} {v : String} {b : Body}
    (h : v = "" ∨ v = "identity" ∨
      (v ≠ "br" ∧ v ≠ "gzip" ∧ v ≠ "x-gzip" ∧ v ≠ "zstd" ∧
        ∀ d ∈ cfg.decoders, d.Encoding ≠ v)) :
    applyToken codecs cfg v b = ([], b, none) := by
  rcases h with h | h | h
  · subst h; rfl
  · subst h; rfl
  · obtain ⟨h₁, h₂, h₃, h₄, h₅⟩ := h
    unfold applyToken
    rw [if_neg h₁, if_neg (by simp [h₂, h₃]), if_neg h₄]
    split
    · rfl
    · exact runCustoms_no_match cfg.decoders 0 v b h₅

theorem decodeLoop_skip {codecs : Codecs} {cfg : Config} :
    ∀ {vs : List String} {b : Body},
      (∀ v ∈ vs, v = "" ∨ v = "identity" ∨
        (v ≠ "br" ∧ v ≠ "gzip" ∧ v ≠ "x-gzip" ∧ v ≠ "zstd" ∧
          ∀ d ∈ cfg.decoders, d.Encoding ≠ v)) →
      decodeLoop codecs cfg vs b = ([], b, none) := by
  intro vs
  induction vs with
  | nil => intro b _; rfl
  | cons v rest ih =>
    intro b h
    have hrest := ih (b := b) (fun v' hv' => h v' (by simp [hv']))
    simp [decodeLoop, applyToken_skip (h v (by simp)), hrest]

/-! ### `"br"` tokens never fail at dispatch time -/

theorem applyToken_br (codecs : Codecs) (cfg : Config) (b : Body) :
    applyToken codecs cfg "br" b = ([Event.builtinBr], codecs.brotli b, none) := rfl

theorem decodeLoop_br_only {codecs : Codecs} {cfg : Config} :
    ∀ {vs : List String} {b : Body}, (∀ v ∈ vs, v = "br") →
      (decodeLoop codecs cfg vs b).2.2 = none ∧
        ∀ e ∈ (decodeLoop codecs cfg vs b).1, e = Event.builtinBr := by
  intro vs
  induction vs with
  | nil => intro b _; exact ⟨rfl, by simp [decodeLoop]⟩
  | cons v rest ih =>
    intro b h
    have hv : v = "br" := h v (by simp)
    subst hv
    have hrest := ih (b := codecs.brotli b) (fun v' hv' => h v' (by simp [hv']))
    constructor
    · simp only [decodeLoop, applyToken_br]
      simpa using hrest.1
    · intro e he
      simp only [decodeLoop, applyToken_br] at he
      simp at he
      rcases he with he | he
      · exact he
      · exact hrest.2 e he

/-! ### Unfolding `serve` on the two method classes and two loop outcomes -/

theorem serve_get_head {codecs : Codecs} {cfg : Config} {r : Request} {w : ResponseState}
    (h : r.method = "GET" ∨ r.method = "HEAD") :
    serve codecs cfg r w = ([Event.next], r, w) := by
  unfold serve
  rw [if_pos h]

theorem serve_ok {codecs : Codecs} {cfg : Config} {r : Request} {w : ResponseState}
    {evs : List Event} {b : Body}
    (hg : r.method ≠ "GET") (hh : r.method ≠ "HEAD")
    (hok : decodeLoop codecs cfg (splitEncodingHeader r.contentEncoding).reverse r.body
      = (evs, b, none)) :
    serve codecs cfg r w =
      (evs ++ [Event.setAccept (negotiated cfg w), Event.next],
        { r with body := b }, { w with acceptEncoding := negotiated cfg w }) := by
  unfold serve
  rw [if_neg (by simp [hg, hh]), hok]

theorem serve_err {codecs : Codecs} {cfg : Config} {r : Request} {w : ResponseState}
    {evs : List Event} {b : Body} {e : String}
    (hg : r.method ≠ "GET") (hh : r.method ≠ "HEAD")
    (hfail : decodeLoop codecs cfg (splitEncodingHeader r.contentEncoding).reverse r.body
      = (evs, b, some e)) :
    serve codecs cfg r w =
      (evs ++ [Event.errEvent e], { r with body := b },
        cfg.errHandler w { r with body := b } e) := by
  unfold serve
  rw [if_neg (by simp [hg, hh]), hfail]

theorem decodeLoop_no_err_events (codecs : Codecs) (cfg : Config) (vs : List String)
    (b : Body) : ∀ e ∈ (decodeLoop codecs cfg vs b).1, e.isErrCall = false := by
  intro e he
  have := decodeLoop_events_decode codecs cfg vs b e he
  cases e <;> simp_all [Event.isDecodeStep, Event.isErrCall]

theorem serve_custom_mem {codecs : Codecs} {cfg : Config} {r : Request} {w : ResponseState}
    {i : Nat} (h : Event.custom i ∈ (serve codecs cfg r w).1) :
    ∃ d, cfg.decoders[i]? = some d ∧
      d.Encoding ≠ "br" ∧ d.Encoding ≠ "gzip" ∧ d.Encoding ≠ "x-gzip" ∧
      d.Encoding ≠ "zstd" ∧ d.Encoding ≠ "" ∧ d.Encoding ≠ "identity" := by
  by_cases hm : r.method = "GET" ∨ r.method = "HEAD"
  · rw [serve_get_head hm] at h
    simp at h
  · push_neg at hm
    have hloop : Event.custom i ∈
        (decodeLoop codecs cfg (splitEncodingHeader r.contentEncoding).reverse r.body).1 := by
      rcases hres : decodeLoop codecs cfg (splitEncodingHeader r.contentEncoding).reverse r.body
        with ⟨evs, b, res⟩
      cases res with
      | some e =>
        rw [serve_err hm.1 hm.2 hres] at h
        simpa using h
      | none =>
        rw [serve_ok hm.1 hm.2 hres] at h
        simpa using h
    obtain ⟨v, _, b', hb'⟩ := decodeLoop_mem_events hloop
    obtain ⟨h1, h2, h3, h4, h5, h6, d, hd, hdv⟩ := applyToken_custom_mem hb'
    exact ⟨d, hd, by rw [hdv]; exact h1, by rw [hdv]; exact h2, by rw [hdv]; exact h3,
      by rw [hdv]; exact h4, by rw [hdv]; exact h5, by rw [hdv]; exact h6⟩

/-! ### The claims -/

/-- **C6**: for every request whose method is GET or HEAD, the middleware
delegates directly to the next handler with the request unchanged: the
`Content-Encoding` header is never read, the body is never replaced, and no
`Accept-Encoding` response header is set, regardless of the request's
`Content-Encoding` value — the trace is exactly one delegation event, the
request and the response state are returned untouched. -/
theorem get_head_passthrough
    (codecs : Codecs) (cfg : Config) (r : Request) (w : ResponseState)
    (h : r.method = "GET" ∨ r.method = "HEAD") :
    serve codecs cfg r w = ([Event.next], r, w) :=
  serve_get_head h

theorem get_head_passthrough_witness :
    (("GET" : String) = "GET" ∨ ("GET" : String) = "HEAD") ∧
      serve ⟨fun b => b, fun _ => .error "g", fun _ _ => .error "z"⟩
        ⟨fun w _ _ => w, [], []⟩ ⟨"GET", "gzip, zstd", [7, 7]⟩ ⟨""⟩
        = ([Event.next], ⟨"GET", "gzip, zstd", [7, 7]⟩, ⟨""⟩) :=
  ⟨Or.inl rfl,
    get_head_passthrough ⟨fun b => b, fun _ => .error "g", fun _ _ => .error "z"⟩
      ⟨fun w _ _ => w, [], []⟩ ⟨"GET", "gzip, zstd", [7, 7]⟩ ⟨""⟩ (Or.inl rfl)⟩

/-- **C7**: the tokens `""` and `"identity"` leave the request body unchanged
and cause no error, and any token matching neither a built-in case nor any
registered custom decoder is silently skipped; when every token of the
header is of one of these kinds, the next handler is still reached with the
body unchanged (the request is returned untouched), no decode event and no
error-handler event occurs, and `Accept-Encoding` is still negotiated. -/
theorem unknown_and_identity_tokens_skipped
    (codecs : Codecs) (cfg : Config) (r : Request) (w : ResponseState)
    (hg : r.method ≠ "GET") (hh : r.method ≠ "HEAD")
    (htok : ∀ v ∈ splitEncodingHeader r.contentEncoding,
      v = "" ∨ v = "identity" ∨
        (v ≠ "br" ∧ v ≠ "gzip" ∧ v ≠ "x-gzip" ∧ v ≠ "zstd" ∧
          ∀ d ∈ cfg.decoders, d.Encoding ≠ v)) :
    serve codecs cfg r w =
      ([Event.setAccept (negotiated cfg w), Event.next], r,
        { w with acceptEncoding := negotiated cfg w }) := by
  have hloop := @decodeLoop_skip codecs cfg (splitEncodingHeader r.contentEncoding).reverse
    r.body (fun v hv => htok v (List.mem_reverse.mp hv))
  have hserve := serve_ok (w := w) hg hh hloop
  simpa using hserve

theorem unknown_and_identity_tokens_skipped_witness :
    (("POST" : String) ≠ "GET") ∧ (("POST" : String) ≠ "HEAD") ∧
    (∀ v ∈ splitEncodingHeader "identity, unknown,",
      v = "" ∨ v = "identity" ∨
        (v ≠ "br" ∧ v ≠ "gzip" ∧ v ≠ "x-gzip" ∧ v ≠ "zstd" ∧
          ∀ d ∈ (Config.mk (fun w _ _ => w) [⟨"c", fun b => .ok b⟩] []).decoders,
            d.Encoding ≠ v)) ∧
    serve ⟨fun b => b, fun _ => .error "g", fun _ _ => .error "z"⟩
        ⟨fun w _ _ => w, [⟨"c", fun b => .ok b⟩], []⟩
        ⟨"POST", "identity, unknown,", [9]⟩ ⟨""⟩
      = ([Event.setAccept (negotiated ⟨fun w _ _ => w, [⟨"c", fun b => .ok b⟩], []⟩ ⟨""⟩),
          Event.next], ⟨"POST", "identity, unknown,", [9]⟩,
          { acceptEncoding :=
            negotiated ⟨fun w _ _ => w, [⟨"c", fun b => .ok b⟩], []⟩ ⟨""⟩ }) :=
  ⟨by decide, by decide, by decide,
    unknown_and_identity_tokens_skipped
      ⟨fun b => b, fun _ => .error "g", fun _ _ => .error "z"⟩
      ⟨fun w _ _ => w, [⟨"c", fun b => .ok b⟩], []⟩
      ⟨"POST", "identity, unknown,", [9]⟩ ⟨""⟩
      (by decide) (by decide) (by decide)⟩

/-- **C8**: built-in token resolution takes precedence over the custom
decoder list: a custom decoder registered at any index `i` with one of the
tokens `"br"`, `"gzip"`, `"x-gzip"`, `"zstd"`, `"identity"`, `""` is never
invoked on any request, because the switch matches those tokens before the
custom list is consulted. -/
theorem builtin_shadowed_custom_never_invoked
    (codecs : Codecs) (cfg : Config) (r : Request) (w : ResponseState)
    (i : Nat) (d : Decoder)
    (hi : cfg.decoders[i]? = some d)
    (hd : d.Encoding ∈ (["br", "gzip", "x-gzip", "zstd", "identity", ""] : List String)) :
    Event.custom i ∉ (serve codecs cfg r w).1 := by
  intro hmem
  obtain ⟨d', hd', h1, h2, h3, h4, h5, h6⟩ := serve_custom_mem hmem
  rw [hi] at hd'
  cases hd'
  simp at hd
  rcases hd with h | h | h | h | h | h <;> simp_all

theorem builtin_shadowed_custom_never_invoked_witness :
    ((Config.mk (fun w _ _ => w) [⟨"gzip", fun b => .ok b⟩] []).decoders[0]?
        = some ⟨"gzip", fun b => .ok b⟩) ∧
    (("gzip" : String) ∈ (["br", "gzip", "x-gzip", "zstd", "identity", ""] : List String)) ∧
    Event.custom 0 ∉ (serve ⟨fun b => b, fun _ => .ok [3], fun _ _ => .ok [4]⟩
      ⟨fun w _ _ => w, [⟨"gzip", fun b => .ok b⟩], []⟩
      ⟨"POST", "gzip", [1]⟩ ⟨""⟩).1 :=
  ⟨rfl, by decide,
    builtin_shadowed_custom_never_invoked
      ⟨fun b => b, fun _ => .ok [3], fun _ _ => .ok [4]⟩
      ⟨fun w _ _ => w, [⟨"gzip", fun b => .ok b⟩], []⟩
      ⟨"POST", "gzip", [1]⟩ ⟨""⟩ 0 ⟨"gzip", fun b => .ok b⟩ rfl (by decide)⟩

/-- **C1**: for a non-GET/non-HEAD request whose `Content-Encoding` header
tokenizes to `[A, B]`, the dispatcher processes the tokens in reverse header
order: the step for token B runs first, on the original body, and the step
for token A runs on B's output; hence for a body encoded with A then B
(`r.body = gB (gA payload)`), when B's step decodes the outer layer and A's
step decodes the inner layer, the next handler receives exactly the original
uncompressed payload, with B's events strictly before A's in the trace. -/
theorem decode_reverse_header_order
    (codecs : Codecs) (cfg : Config) (r : Request) (w : ResponseState)
    (a b : String) (gA gB : Body → Body) (payload : Body)
    (evsB evsA : List Event)
    (hg : r.method ≠ "GET") (hh : r.method ≠ "HEAD")
    (hsplit : splitEncodingHeader r.contentEncoding = [a, b])
    (hbody : r.body = gB (gA payload))
    (hstepB : applyToken codecs cfg b (gB (gA payload)) = (evsB, gA payload, none))
    (hstepA : applyToken codecs cfg a (gA payload) = (evsA, payload, none)) :
    serve codecs cfg r w =
      (evsB ++ evsA ++ [Event.setAccept (negotiated cfg w), Event.next],
        { r with body := payload }, { w with acceptEncoding := negotiated cfg w }) := by
  have hloop : decodeLoop codecs cfg [b, a] r.body = (evsB ++ evsA, payload, none) := by
    rw [hbody]
    simp only [decodeLoop, hstepB, hstepA]
    simp
  have hserve := serve_ok (w := w) hg hh (by rw [hsplit]; simpa using hloop)
  simpa [List.append_assoc] using hserve

theorem decode_reverse_header_order_witness :
    (("POST" : String) ≠ "GET") ∧ (("POST" : String) ≠ "HEAD") ∧
    splitEncodingHeader "A, B" = ["A", "B"] ∧
    ([2, 1, 7] : Body) = 2 :: 1 :: [7] ∧
    applyToken ⟨fun x => x, fun _ => .error "g", fun _ _ => .error "z"⟩
      ⟨fun w _ _ => w, [⟨"A", fun x => .ok x.tail⟩, ⟨"B", fun x => .ok x.tail⟩], []⟩
      "B" (2 :: 1 :: [7]) = ([Event.custom 1], 1 :: [7], none) ∧
    applyToken ⟨fun x => x, fun _ => .error "g", fun _ _ => .error "z"⟩
      ⟨fun w _ _ => w, [⟨"A", fun x => .ok x.tail⟩, ⟨"B", fun x => .ok x.tail⟩], []⟩
      "A" (1 :: [7]) = ([Event.custom 0], [7], none) ∧
    serve ⟨fun x => x, fun _ => .error "g", fun _ _ => .error "z"⟩
      ⟨fun w _ _ => w, [⟨"A", fun x => .ok x.tail⟩, ⟨"B", fun x => .ok x.tail⟩], []⟩
      ⟨"POST", "A, B", [2, 1, 7]⟩ ⟨""⟩
      = ([Event.custom 1] ++ [Event.custom 0] ++
          [Event.setAccept (negotiated
            ⟨fun w _ _ => w, [⟨"A", fun x => .ok x.tail⟩, ⟨"B", fun x => .ok x.tail⟩], []⟩
            ⟨""⟩), Event.next],
          ⟨"POST", "A, B", [7]⟩,
          { acceptEncoding := (negotiated
            ⟨fun w _ _ => w, [⟨"A", fun x => .ok x.tail⟩, ⟨"B", fun x => .ok x.tail⟩], []⟩
            ⟨""⟩) }) :=
  ⟨by decide, by decide, by decide, by decide, by decide, by decide,
    decode_reverse_header_order
      ⟨fun x => x, fun _ => .error "g", fun _ _ => .error "z"⟩
      ⟨fun w _ _ => w, [⟨"A", fun x => .ok x.tail⟩, ⟨"B", fun x => .ok x.tail⟩], []⟩
      ⟨"POST", "A, B", [2, 1, 7]⟩ ⟨""⟩
      "A" "B" (fun x => 1 :: x) (fun x => 2 :: x) [7]
      [Event.custom 1] [Event.custom 0]
      (by decide) (by decide) (by decide) (by decide) (by decide) (by decide)⟩

/-- **C2**: on a non-GET/non-HEAD request whose decode loop fails at some
step, the configured error handler is invoked exactly once — the final
response state is exactly `cfg.errHandler` applied to the untouched response
writer, the request with the partially decoded body, and the error — the
error event is the last event of the trace (no remaining token is attempted
after it), the next handler is never invoked, and no `Accept-Encoding`
header is set by the middleware. -/
theorem decode_failure_stops_processing
    (codecs : Codecs) (cfg : Config) (r : Request) (w : ResponseState)
    (evs : List Event) (b : Body) (e : String)
    (hg : r.method ≠ "GET") (hh : r.method ≠ "HEAD")
    (hfail : decodeLoop codecs cfg (splitEncodingHeader r.contentEncoding).reverse r.body
      = (evs, b, some e)) :
    serve codecs cfg r w =
      (evs ++ [Event.errEvent e], { r with body := b },
        cfg.errHandler w { r with body := b } e) ∧
    ((serve codecs cfg r w).1.filter Event.isErrCall).length = 1 ∧
    Event.next ∉ (serve codecs cfg r w).1 ∧
    (∀ s, Event.setAccept s ∉ (serve codecs cfg r w).1) := by
  have hserve := serve_err (w := w) hg hh hfail
  have hNoErr : ∀ ev ∈ evs, ev.isErrCall = false := by
    intro ev hev
    have := decodeLoop_no_err_events codecs cfg
      (splitEncodingHeader r.contentEncoding).reverse r.body ev
    rw [hfail] at this
    exact this hev
  have hDecode : ∀ ev ∈ evs, ev.isDecodeStep = true := by
    intro ev hev
    have := decodeLoop_events_decode codecs cfg
      (splitEncodingHeader r.contentEncoding).reverse r.body ev
    rw [hfail] at this
    exact this hev
  refine ⟨hserve, ?_, ?_, ?_⟩
  · rw [hserve]
    simp only [List.filter_append, List.length_append]
    rw [List.filter_eq_nil_iff.mpr (fun ev hev => by simp [hNoErr ev hev])]
    simp [Event.isErrCall]
  · rw [hserve]
    simp only [List.mem_append, List.mem_singleton]
    rintro (hmem | hmem)
    · have := hDecode _ hmem
      simp [Event.isDecodeStep] at this
    · exact absurd hmem (by simp)
  · intro s
    rw [hserve]
    simp only [List.mem_append, List.mem_singleton]
    rintro (hmem | hmem)
    · have := hDecode _ hmem
      simp [Event.isDecodeStep] at this
    · exact absurd hmem (by simp)

theorem decode_failure_stops_processing_witness :
    (("POST" : String) ≠ "GET") ∧ (("POST" : String) ≠ "HEAD") ∧
    decodeLoop ⟨fun x => x, fun _ => .error "bad gzip", fun _ _ => .error "z"⟩
      ⟨fun _ _ e => ⟨e⟩, [], []⟩
      (splitEncodingHeader "gzip").reverse [5]
      = ([Event.builtinGzip], [5], some "bad gzip") ∧
    (serve ⟨fun x => x, fun _ => .error "bad gzip", fun _ _ => .error "z"⟩
        ⟨fun _ _ e => ⟨e⟩, [], []⟩ ⟨"POST", "gzip", [5]⟩ ⟨""⟩
      = ([Event.builtinGzip, Event.errEvent "bad gzip"],
          ⟨"POST", "gzip", [5]⟩, ⟨"bad gzip"⟩) ∧
      ((serve ⟨fun x => x, fun _ => .error "bad gzip", fun _ _ => .error "z"⟩
        ⟨fun _ _ e => ⟨e⟩, [], []⟩ ⟨"POST", "gzip", [5]⟩
        ⟨""⟩).1.filter Event.isErrCall).length = 1 ∧
      Event.next ∉ (serve ⟨fun x => x, fun _ => .error "bad gzip", fun _ _ => .error "z"⟩
        ⟨fun _ _ e => ⟨e⟩, [], []⟩ ⟨"POST", "gzip", [5]⟩ ⟨""⟩).1 ∧
      (∀ s, Event.setAccept s ∉
        (serve ⟨fun x => x, fun _ => .error "bad gzip", fun _ _ => .error "z"⟩
          ⟨fun _ _ e => ⟨e⟩, [], []⟩ ⟨"POST", "gzip", [5]⟩ ⟨""⟩).1)) :=
  ⟨by decide, by decide, by decide,
    by
      have h := decode_failure_stops_processing
        ⟨fun x => x, fun _ => .error "bad gzip", fun _ _ => .error "z"⟩
        ⟨fun _ _ e => ⟨e⟩, [], []⟩ ⟨"POST", "gzip", [5]⟩ ⟨""⟩
        [Event.builtinGzip] [5] "bad gzip" (by decide) (by decide) (by decide)
      exact ⟨h.1, h.2.1, h.2.2.1, h.2.2.2⟩⟩

/-- **C3**: on the success path of a non-GET/non-HEAD request, if the
response carries no prior `Accept-Encoding` header the header is set to the
built-in list `"br", "gzip", "zstd"` followed by every custom decoder token
in registration order, joined with `", "` in that fixed unsorted order; if a
prior header exists, the header is set to the lexicographically sorted,
duplicate-free list holding exactly the union of the prior header's tokens
and the supported-encoding list, joined with `", "`. -/
theorem accept_encoding_negotiation
    (codecs : Codecs) (cfg : Config) (r : Request) (w : ResponseState)
    (evs : List Event) (b : Body)
    (hg : r.method ≠ "GET") (hh : r.method ≠ "HEAD")
    (hok : decodeLoop codecs cfg (splitEncodingHeader r.contentEncoding).reverse r.body
      = (evs, b, none)) :
    (w.acceptEncoding = "" →
      (serve codecs cfg r w).2.2.acceptEncoding =
        joinWithCommaSpace (["br", "gzip", "zstd"] ++ cfg.decoders.map (·.Encoding))) ∧
    (w.acceptEncoding ≠ "" →
      ∃ l, (serve codecs cfg r w).2.2.acceptEncoding = joinWithCommaSpace l ∧
        List.Sorted StrLeProp l ∧ l.Nodup ∧
        (∀ x, x ∈ l ↔
          (x ∈ splitEncodingHeader w.acceptEncoding ∨ x ∈ encodings cfg))) := by
  rw [serve_ok hg hh hok]
  constructor
  · intro hempty
    simp [negotiated, hempty, acceptEncodingDefault, encodings]
  · intro hprior
    have hcur : splitEncodingHeader w.acceptEncoding ≠ [] :=
      fun hnil => hprior ((splitEncodingHeader_eq_nil_iff _).mp hnil)
    refine ⟨sortStrings ((splitEncodingHeader w.acceptEncoding ++ encodings cfg)).dedup,
      ?_, sortStrings_sorted _, ?_, ?_⟩
    · simp only [negotiated, if_neg hprior, mergeAcceptEncoding]
      rw [if_neg (by simpa [List.length_eq_zero] using hcur)]
    · exact ((sortStrings_perm _).symm).nodup (List.nodup_dedup _)
    · intro x
      rw [(sortStrings_perm _).mem_iff, List.mem_dedup, List.mem_append]

theorem accept_encoding_negotiation_witness :
    (("POST" : String) ≠ "GET") ∧ (("POST" : String) ≠ "HEAD") ∧
    decodeLoop ⟨fun x => x, fun _ => .error "g", fun _ _ => .error "z"⟩
      ⟨fun w _ _ => w, [⟨"c", fun x => .ok x⟩], []⟩
      (splitEncodingHeader "").reverse []
      = ([], [], none) ∧
    (((⟨"gzip"⟩ : ResponseState).acceptEncoding = "" →
      (serve ⟨fun x => x, fun _ => .error "g", fun _ _ => .error "z"⟩
        ⟨fun w _ _ => w, [⟨"c", fun x => .ok x⟩], []⟩ ⟨"POST", "", []⟩
        ⟨"gzip"⟩).2.2.acceptEncoding =
          joinWithCommaSpace (["br", "gzip", "zstd"] ++
            (Config.mk (fun w _ _ => w) [⟨"c", fun x => .ok x⟩] []).decoders.map
              (·.Encoding))) ∧
    ((⟨"gzip"⟩ : ResponseState).acceptEncoding ≠ "" →
      ∃ l, (serve ⟨fun x => x, fun _ => .error "g", fun _ _ => .error "z"⟩
        ⟨fun w _ _ => w, [⟨"c", fun x => .ok x⟩], []⟩ ⟨"POST", "", []⟩
        ⟨"gzip"⟩).2.2.acceptEncoding = joinWithCommaSpace l ∧
        List.Sorted StrLeProp l ∧ l.Nodup ∧
        (∀ x, x ∈ l ↔
          (x ∈ splitEncodingHeader (⟨"gzip"⟩ : ResponseState).acceptEncoding ∨
            x ∈ encodings ⟨fun w _ _ => w, [⟨"c", fun x => .ok x⟩], []⟩)))) :=
  ⟨by decide, by decide, by decide,
    accept_encoding_negotiation
      ⟨fun x => x, fun _ => .error "g", fun _ _ => .error "z"⟩
      ⟨fun w _ _ => w, [⟨"c", fun x => .ok x⟩], []⟩ ⟨"POST", "", []⟩ ⟨"gzip"⟩
      [] [] (by decide) (by decide) (by decide)⟩

/-- **C9**: processing `"br"` tokens never fails at dispatch time — for every
configuration and request whose tokens are all `"br"`, no error-handler
event occurs and the next handler is always reached — whereas the `"gzip"`,
`"x-gzip"` and `"zstd"` steps may fail at dispatch time and route their
error to the error handler, witnessed by codecs whose gzip / zstd
constructors reject the body. -/
theorem br_dispatch_never_fails :
    (∀ (codecs : Codecs) (cfg : Config) (r : Request) (w : ResponseState),
      (∀ v ∈ splitEncodingHeader r.contentEncoding, v = "br") →
        (∀ e, Event.errEvent e ∉ (serve codecs cfg r w).1) ∧
          Event.next ∈ (serve codecs cfg r w).1) ∧
    (∃ codecs cfg r w e, splitEncodingHeader r.contentEncoding = ["gzip"] ∧
      (serve codecs cfg r w).1 = [Event.builtinGzip, Event.errEvent e]) ∧
    (∃ codecs cfg r w e, splitEncodingHeader r.contentEncoding = ["x-gzip"] ∧
      (serve codecs cfg r w).1 = [Event.builtinGzip, Event.errEvent e]) ∧
    (∃ codecs cfg r w e, splitEncodingHeader r.contentEncoding = ["zstd"] ∧
      (serve codecs cfg r w).1 = [Event.builtinZstd, Event.errEvent e]) := by
  refine ⟨?_, ?_, ?_, ?_⟩
  · intro codecs cfg r w hbr
    by_cases hm : r.method = "GET" ∨ r.method = "HEAD"
    · rw [serve_get_head hm]
      exact ⟨fun e => by simp, by simp⟩
    · push_neg at hm
      have hbrrev : ∀ v ∈ (splitEncodingHeader r.contentEncoding).reverse, v = "br" :=
        fun v hv => hbr v (List.mem_reverse.mp hv)
      have hloop := @decodeLoop_br_only codecs cfg
        (splitEncodingHeader r.contentEncoding).reverse r.body hbrrev
      rcases hres : decodeLoop codecs cfg (splitEncodingHeader r.contentEncoding).reverse r.body
        with ⟨evs, b, res⟩
      rw [hres] at hloop
      simp only at hloop
      cases res with
      | some e => exact absurd hloop.1 (by simp)
      | none =>
        rw [serve_ok hm.1 hm.2 hres]
        constructor
        · intro e
          simp only [List.mem_append, List.mem_cons, List.mem_singleton]
          rintro (hmem | hmem | hmem)
          · have := hloop.2 _ hmem
            simp at this
          · simp at hmem
          · simp at hmem
        · simp
  · exact ⟨⟨fun x => x, fun _ => .error "eg", fun _ _ => .error "ez"⟩,
      ⟨fun w _ _ => w, [], []⟩, ⟨"POST", "gzip", []⟩, ⟨""⟩, "eg", by decide, by decide⟩
  · exact ⟨⟨fun x => x, fun _ => .error "eg", fun _ _ => .error "ez"⟩,
      ⟨fun w _ _ => w, [], []⟩, ⟨"POST", "x-gzip", []⟩, ⟨""⟩, "eg", by decide, by decide⟩
  · exact ⟨⟨fun x => x, fun _ => .error "eg", fun _ _ => .error "ez"⟩,
      ⟨fun w _ _ => w, [], []⟩, ⟨"POST", "zstd", []⟩, ⟨""⟩, "ez", by decide, by decide⟩

/-- **C10**: the `Accept-Encoding` merge is deterministic although it builds
an unordered set internally: for every duplicate-free enumeration `l` of the
union of the prior header's tokens and the supported-encoding list —
whatever order the set yields its elements — sorting and joining `l`
produces exactly `mergeAcceptEncoding raw adds`, so the result is a pure
function of the two inputs. -/
theorem mergeAcceptEncoding_listing_independent
    (raw : String) (adds : List String) (l : List String)
    (hraw : raw ≠ "") (hnd : l.Nodup)
    (hsub₁ : ∀ x ∈ l, x ∈ splitEncodingHeader raw ++ adds)
    (hsub₂ : ∀ x ∈ splitEncodingHeader raw ++ adds, x ∈ l) :
    joinWithCommaSpace (sortStrings l) = mergeAcceptEncoding raw adds := by
  have hcur : splitEncodingHeader raw ≠ [] :=
    fun hnil => hraw ((splitEncodingHeader_eq_nil_iff _).mp hnil)
  simp only [mergeAcceptEncoding]
  rw [if_neg (by simpa [List.length_eq_zero] using hcur)]
  congr 1
  apply sortStrings_eq_of_perm
  refine (List.perm_ext_iff_of_nodup hnd (List.nodup_dedup _)).mpr (fun x => ?_)
  rw [List.mem_dedup]
  exact ⟨hsub₁ x, hsub₂ x⟩

theorem mergeAcceptEncoding_listing_independent_witness :
    (("gzip" : String) ≠ "") ∧ (["zstd", "gzip", "br"] : List String).Nodup ∧
    (∀ x ∈ (["zstd", "gzip", "br"] : List String),
      x ∈ splitEncodingHeader "gzip" ++ ["br", "gzip", "zstd"]) ∧
    (∀ x ∈ splitEncodingHeader "gzip" ++ ["br", "gzip", "zstd"],
      x ∈ (["zstd", "gzip", "br"] : List String)) ∧
    joinWithCommaSpace (sortStrings ["zstd", "gzip", "br"])
      = mergeAcceptEncoding "gzip" ["br", "gzip", "zstd"] :=
  ⟨by decide, by decide, by decide, by decide,
    mergeAcceptEncoding_listing_independent "gzip" ["br", "gzip", "zstd"]
      ["zstd", "gzip", "br"] (by decide) (by decide) (by decide) (by decide)⟩

/-- **C4** (counterexample): with two custom decoders registered for the same
token `"c"` — the first appending byte 0, the second appending byte 1 — a
request with `Content-Encoding: c` invokes the *second* matching decoder as
well (its invocation event is in the trace) and the final body carries both
suffixes, refuting the claim that only the first match is invoked and later
matching entries are skipped. -/
theorem custom_duplicate_token_second_invoked :
    Event.custom 1 ∈ (serve ⟨fun x => x, fun _ => .ok [], fun _ _ => .ok []⟩
      ⟨fun w _ _ => w, [⟨"c", fun x => .ok (x ++ [0])⟩, ⟨"c", fun x => .ok (x ++ [1])⟩], []⟩
      ⟨"POST", "c", []⟩ ⟨""⟩).1 ∧
    (serve ⟨fun x => x, fun _ => .ok [], fun _ _ => .ok []⟩
      ⟨fun w _ _ => w, [⟨"c", fun x => .ok (x ++ [0])⟩, ⟨"c", fun x => .ok (x ++ [1])⟩], []⟩
      ⟨"POST", "c", []⟩ ⟨""⟩).2.1.body = [0, 1] := by
  constructor
  · decide
  · decide

theorem runCustoms_eq_invokeAllSpec :
    ∀ (ds : List Decoder) (idx : Nat) (v : String) (b : Body),
      runCustoms ds idx v b = invokeAllSpec (matchingDecoders ds idx v) b := by
  intro ds
  induction ds with
  | nil => intro idx v b; rfl
  | cons d rest ih =>
    intro idx v b
    simp only [runCustoms, matchingDecoders]
    split
    · simp only [invokeAllSpec]
      rcases hh : d.Handler b with e | b'
      · rfl
      · simp [ih (idx + 1) v b']
    · exact ih (idx + 1) v b

theorem matchingDecoders_mem :
    ∀ (ds : List Decoder) (idx : Nat) (v : String) (i : Nat) (d : Decoder),
      (i, d) ∈ matchingDecoders ds idx v ↔
        ∃ j, ds[j]? = some d ∧ i = idx + j ∧ d.Encoding = v := by
  intro ds
  induction ds with
  | nil => intro idx v i d; simp [matchingDecoders]
  | cons d₀ rest ih =>
    intro idx v i d
    simp only [matchingDecoders]
    split
    · rename_i hv
      constructor
      · intro h
        rcases List.mem_cons.mp h with h | h
        · rw [Prod.mk.injEq] at h
          obtain ⟨hi, hd⟩ := h
          subst hi; subst hd
          exact ⟨0, by simp, by omega, hv.symm⟩
        · obtain ⟨j, hj, hi, hd⟩ := (ih (idx + 1) v i d).mp h
          exact ⟨j + 1, by simpa using hj, by omega, hd⟩
      · rintro ⟨j, hj, hi, hd⟩
        cases j with
        | zero =>
          simp at hj
          subst hj
          have hidx : i = idx := by omega
          subst hidx
          exact List.mem_cons_self _ _
        | succ j' =>
          exact List.mem_cons_of_mem _
            ((ih (idx + 1) v i d).mpr ⟨j', by simpa using hj, by omega, hd⟩)
    · rename_i hv
      constructor
      · intro h
        obtain ⟨j, hj, hi, hd⟩ := (ih (idx + 1) v i d).mp h
        exact ⟨j + 1, by simpa using hj, by omega, hd⟩
      · rintro ⟨j, hj, hi, hd⟩
        cases j with
        | zero =>
          simp at hj
          subst hj
          exact absurd hd.symm hv
        | succ j' =>
          exact (ih (idx + 1) v i d).mpr ⟨j', by simpa using hj, by omega, hd⟩

/-- **C4** (amended): for every token `v` that matches no built-in case, the
dispatcher falls through to the custom scan, and that scan — on *every*
decoder list, not only duplicate pairs — invokes every custom decoder whose
`Encoding` equals the token, in registration order, each handler applied to
the body produced by the previous matching one, stopping early only when a
handler fails (the Go loop has no break): `runCustoms` coincides with the
spec-side `invokeAllSpec` run over exactly the matching entries, and those
entries are characterized as precisely the positions `j` of the registered
list whose decoder carries the token. -/
theorem custom_decoders_every_match_invoked :
    (∀ (codecs : Codecs) (cfg : Config) (v : String) (b : Body),
      v ≠ "br" → v ≠ "gzip" → v ≠ "x-gzip" → v ≠ "zstd" → v ≠ "" → v ≠ "identity" →
        applyToken codecs cfg v b = invokeAllSpec (matchingDecoders cfg.decoders 0 v) b) ∧
    (∀ (ds : List Decoder) (idx : Nat) (v : String) (b : Body),
      runCustoms ds idx v b = invokeAllSpec (matchingDecoders ds idx v) b) ∧
    (∀ (ds : List Decoder) (idx : Nat) (v : String) (i : Nat) (d : Decoder),
      (i, d) ∈ matchingDecoders ds idx v ↔
        ∃ j, ds[j]? = some d ∧ i = idx + j ∧ d.Encoding = v) := by
  refine ⟨?_, runCustoms_eq_invokeAllSpec, matchingDecoders_mem⟩
  intro codecs cfg v b h1 h2 h3 h4 h5 h6
  unfold applyToken
  rw [if_neg h1, if_neg (by simp [h2, h3]), if_neg h4, if_neg (by simp [h5, h6])]
  exact runCustoms_eq_invokeAllSpec cfg.decoders 0 v b

/-- **C5** (counterexample): tokenization does *not* strip all whitespace —
only the space character is removed.  On the raw header `"gzip,\tbr"` the
tab survives: the produced token list is `["gzip", "\tbr"]`, whose second
token still contains whitespace and differs from `"br"`. -/
theorem splitEncodingHeader_keeps_tab :
    splitEncodingHeader "gzip,\tbr" = ["gzip", "\tbr"] ∧
    ("\tbr" : String) ≠ "br" ∧ splitEncodingHeader "gzip,\tbr" ≠ ["gzip", "br"] := by
  refine ⟨by decide, by decide, by decide⟩

/-- **C5** (amended): tokenizing a header value strips all *space characters*
(U+0020 only — other whitespace such as tabs is preserved) from the raw
string, splits the result on `","` and returns the fields in order (joining
the tokens back with `","` recovers the space-stripped input); the empty
input yields the empty sequence rather than one empty token, and
tokenization is a total function with no failure mode. -/
theorem splitEncodingHeader_strips_spaces_only (raw : String) :
    splitEncodingHeader raw
      = (if raw = "" then [] else splitComma ⟨raw.data.filter (fun c => c != ' ')⟩) ∧
    (∀ t ∈ splitEncodingHeader raw, ' ' ∉ t.data) ∧
    (raw ≠ "" → joinComma (splitEncodingHeader raw) = ⟨raw.data.filter (fun c => c != ' ')⟩) := by
  have hfilter : noSpaceReplace raw = ⟨raw.data.filter (fun c => c != ' ')⟩ :=
    congrArg String.mk (replaceSpaceAux_eq_filter raw.data)
  refine ⟨?_, splitEncodingHeader_no_space raw, ?_⟩
  · unfold splitEncodingHeader
    split
    · rfl
    · rw [hfilter]
  · intro hraw
    unfold splitEncodingHeader
    rw [if_neg hraw, joinComma_splitComma, hfilter]

theorem splitEncodingHeader_strips_spaces_only_witness :
    (splitEncodingHeader " gzip ,br"
      = (if (" gzip ,br" : String) = "" then []
         else splitComma ⟨(" gzip ,br" : String).data.filter (fun c => c != ' ')⟩)) ∧
    (∀ t ∈ splitEncodingHeader " gzip ,br", ' ' ∉ t.data) ∧
    ((" gzip ,br" : String) ≠ "" →
      joinComma (splitEncodingHeader " gzip ,br")
        = ⟨(" gzip ,br" : String).data.filter (fun c => c != ' ')⟩) :=
  splitEncodingHeader_strips_spaces_only " gzip ,br"

end ContentEncoding
